import Mathlib

/-!
Verification of the typedoc-monorepo-link-types plugin (src/index.ts).

The development shallowly embeds the two components of the plugin:

* the Reference Collector, function discoverMissingExports (a breadth-first
  worklist traversal of the documentation tree driven by a recursive type
  visitor), and
* the Resolution Driver, function onResolveBegin (per-module fixpoint loop
  that aliases missing symbols to existing reflections or synthesizes new
  declarations inside a lazily created internal namespace).

Compiler symbols, reflections and type values are modelled as concrete data.
External typedoc services consumed by the plugin (name lookup in the ambient
scope, symbol conversion, option values) are modelled at their interface as
fields of a context record.  Tree mutation and registration side effects are
modelled by explicit state passing; the driver state records the registration
log, the internal namespace with its synthesized children, the creation count
of the namespace and the set of tried symbols.
-/

/-- A compiler symbol: an identity from the name-resolution space of the
external compiler plus its name.  Identity (the sid field) is what makes two
symbols equal, mirroring reference equality of ts.Symbol values; the name is
what the driver looks up. -/
structure Symb where
  sid : Nat
  name : String
deriving DecidableEq

/-- The TypeScript class of a reflection node, as tested by the instanceof
dispatch of the traversal.  DeclarationReflection extends
ContainerReflection, so declaration nodes also run the container branch;
the container tag stands for container reflections that are not
declarations (the project root). -/
inductive RClass where
  | container
  | declaration
  | signature
  | parameter
  | typeParameter
deriving DecidableEq

/-- True for nodes that are instances of ContainerReflection. -/
def RClass.isContainer : RClass → Bool
  | .container => true
  | .declaration => true
  | _ => false

/-- The ReflectionKind tag, used by getChildrenByKind and by the module
ownership lookup of the driver. -/
inductive RKind where
  | project
  | module
  | namespaceKind
  | classKind
  | interfaceKind
  | functionKind
  | variableKind
  | typeAliasKind
deriving DecidableEq

/-- A type value attached to a reflection, parametric in the reflection type
to break the mutual recursion.  Three shapes matter to the collector:

* refType: a symbol reference; sym is the result of getSymbol (a reference
  may carry no symbol), resolvedTo is the id of the resolved reflection when
  the reference is already satisfied (none means unresolved);
* reflType: an inline reflection type wrapping a nested declaration;
* other: any composite shape (union, array, conditional, ...) whose parts
  the recursive visitor walks generically. -/
inductive TypeValF (R : Type) : Type where
  | refType (sym : Option Symb) (resolvedTo : Option Nat) (typeArguments : List (TypeValF R))
  | reflType (decl : R)
  | other (parts : List (TypeValF R))

/-- A node of the documentation tree.  The fields are exactly the ones the
plugin reads: identity, class, kind and name, plus the child lists and type
carrying fields visited by discoverMissingExports.  extendedBy and
implementedBy are present but deliberately never traversed by the
collector, mirroring the source. -/
structure Reflection where
  id : Nat
  cls : RClass
  kind : RKind
  name : String
  children : List Reflection
  type : Option (TypeValF Reflection)
  typeParameters : List Reflection
  signatures : List Reflection
  indexSignature : Option Reflection
  getSignature : Option Reflection
  setSignature : Option Reflection
  overwrites : Option (TypeValF Reflection)
  inheritedFrom : Option (TypeValF Reflection)
  implementationOf : Option (TypeValF Reflection)
  extendedTypes : List (TypeValF Reflection)
  extendedBy : List (TypeValF Reflection)
  implementedTypes : List (TypeValF Reflection)
  implementedBy : List (TypeValF Reflection)
  parameters : List Reflection
  default : Option (TypeValF Reflection)

abbrev TypeVal := TypeValF Reflection

/-- getChildrenByKind from typedoc: the direct children of the given kind. -/
def Reflection.getChildrenByKind (r : Reflection) (kind : RKind) : List Reflection :=
  r.children.filter fun c => c.kind = kind

mutual

/-- Size measure for reflections (termination of the worklist traversal).
Counts one for the node plus the sizes of every field the collector may
enqueue or visit. -/
def reflSize : Reflection → Nat
  | ⟨_, _, _, _, children, type, typeParameters, signatures, indexSignature, getSignature,
      setSignature, overwrites, inheritedFrom, implementationOf, extendedTypes, _,
      implementedTypes, _, parameters, default⟩ =>
    1 + reflListSize children + typeOptSize type + reflListSize typeParameters
      + reflListSize signatures + reflOptSize indexSignature + reflOptSize getSignature
      + reflOptSize setSignature + typeOptSize overwrites + typeOptSize inheritedFrom
      + typeOptSize implementationOf + typeListSize extendedTypes
      + typeListSize implementedTypes + reflListSize parameters + typeOptSize default

/-- Total size of a list of reflections. -/
def reflListSize : List Reflection → Nat
  | [] => 0
  | r :: rs => reflSize r + reflListSize rs

/-- Size of an optional reflection. -/
def reflOptSize : Option Reflection → Nat
  | none => 0
  | some r => reflSize r

/-- Size measure for type values. -/
def typeSize : TypeVal → Nat
  | .refType _ _ args => 1 + typeListSize args
  | .reflType d => 1 + reflSize d
  | .other parts => 1 + typeListSize parts

/-- Total size of a list of type values. -/
def typeListSize : List TypeVal → Nat
  | [] => 0
  | t :: ts => typeSize t + typeListSize ts

/-- Size of an optional type value. -/
def typeOptSize : Option TypeVal → Nat
  | none => 0
  | some t => typeSize t

end

/-- Insertion into a JavaScript Set kept as a list without duplicates in
insertion order: Set.add is a no-op on an element already present. -/
def jsInsert (l : List Symb) (s : Symb) : List Symb :=
  if s ∈ l then l else l ++ [s]

mutual

/-- The recursive type visitor built with makeRecursiveVisitor (source lines
153 to 165).  Returns the symbols added to the missing set and the inline
declarations pushed onto the traversal queue.  A symbol reference whose
reflection is unresolved contributes the symbol returned by getSymbol when
there is one; an inline reflection type contributes its wrapped declaration
to the queue and nothing to the missing set; the visitor recurses through
composite type shapes and type arguments. -/
def visitType : TypeVal → List Symb × List Reflection
  | .refType sym resolvedTo args =>
    let rest := visitTypes args
    match resolvedTo, sym with
    | none, some s => (s :: rest.1, rest.2)
    | _, _ => rest
  | .reflType decl => ([], [decl])
  | .other parts => visitTypes parts

/-- The visitor applied to every element of a list of type values. -/
def visitTypes : List TypeVal → List Symb × List Reflection
  | [] => ([], [])
  | t :: ts =>
    let a := visitType t
    let b := visitTypes ts
    (a.1 ++ b.1, a.2 ++ b.2)

end

/-- Visit an optional type value. -/
def visitTypeOpt : Option TypeVal → List Symb × List Reflection
  | none => ([], [])
  | some t => visitType t

/-- One step of the worklist traversal of discoverMissingExports (source
lines 177 to 218): the contribution of a single dequeued node, as the pair
of the symbols added to the missing set and the items enqueued.  Each
instanceof branch of the source corresponds to one cls test; a
declaration node is also a container, so it runs both branches. -/
def processNode (current : Reflection) : List Symb × List Reflection :=
  let acc : List Symb × List Reflection := ([], [])
  let acc := if current.cls.isContainer then (acc.1, acc.2 ++ current.children) else acc
  let acc :=
    if current.cls = .declaration then
      let v := visitTypeOpt current.type
      let acc := (acc.1 ++ v.1, acc.2 ++ v.2)
      let acc := (acc.1, acc.2 ++ current.typeParameters)
      let acc := (acc.1, acc.2 ++ current.signatures)
      let acc := (acc.1, acc.2 ++ current.indexSignature.toList)
      let acc := (acc.1, acc.2 ++ current.getSignature.toList)
      let acc := (acc.1, acc.2 ++ current.setSignature.toList)
      let v := visitTypeOpt current.overwrites
      let acc := (acc.1 ++ v.1, acc.2 ++ v.2)
      let v := visitTypeOpt current.inheritedFrom
      let acc := (acc.1 ++ v.1, acc.2 ++ v.2)
      let v := visitTypeOpt current.implementationOf
      let acc := (acc.1 ++ v.1, acc.2 ++ v.2)
      let v := visitTypes current.extendedTypes
      let acc := (acc.1 ++ v.1, acc.2 ++ v.2)
      let v := visitTypes current.implementedTypes
      let acc := (acc.1 ++ v.1, acc.2 ++ v.2)
      acc
    else acc
  let acc :=
    if current.cls = .signature then
      let acc := (acc.1, acc.2 ++ current.parameters)
      let acc := (acc.1, acc.2 ++ current.typeParameters)
      let v := visitTypeOpt current.type
      let acc := (acc.1 ++ v.1, acc.2 ++ v.2)
      let v := visitTypeOpt current.overwrites
      let acc := (acc.1 ++ v.1, acc.2 ++ v.2)
      let v := visitTypeOpt current.inheritedFrom
      let acc := (acc.1 ++ v.1, acc.2 ++ v.2)
      let v := visitTypeOpt current.implementationOf
      let acc := (acc.1 ++ v.1, acc.2 ++ v.2)
      acc
    else acc
  let acc :=
    if current.cls = .parameter then
      let v := visitTypeOpt current.type
      (acc.1 ++ v.1, acc.2 ++ v.2)
    else acc
  let acc :=
    if current.cls = .typeParameter then
      let v := visitTypeOpt current.type
      let acc := (acc.1 ++ v.1, acc.2 ++ v.2)
      let v := visitTypeOpt current.default
      (acc.1 ++ v.1, acc.2 ++ v.2)
    else acc
  acc

theorem reflListSize_append (xs ys : List Reflection) :
    reflListSize (xs ++ ys) = reflListSize xs + reflListSize ys := by
  induction xs with
  | nil => simp [reflListSize]
  | cons r rs ih => simp [reflListSize, ih]; ring

theorem reflSize_pos (r : Reflection) : 0 < reflSize r := by
  obtain ⟨i, c, k, n, f1, f2, f3, f4, f5, f6, f7, f8, f9, f10, f11, f12, f13, f14, f15, f16⟩ := r
  simp only [reflSize]
  omega

mutual

theorem visitType_size (t : TypeVal) : reflListSize (visitType t).2 ≤ typeSize t := by
  match t with
  | .refType sym resolvedTo args =>
    have h := visitTypes_size args
    simp only [visitType, typeSize]
    match resolvedTo, sym with
    | none, some s => simpa using Nat.le_trans h (by omega)
    | none, none => exact Nat.le_trans h (by omega)
    | some r, sym => exact Nat.le_trans h (by omega)
  | .reflType d => simp [visitType, typeSize, reflListSize]
  | .other parts =>
    have h := visitTypes_size parts
    simp only [visitType, typeSize]
    omega

theorem visitTypes_size (ts : List TypeVal) : reflListSize (visitTypes ts).2 ≤ typeListSize ts := by
  match ts with
  | [] => simp [visitTypes, typeListSize, reflListSize]
  | t :: rest =>
    have h1 := visitType_size t
    have h2 := visitTypes_size rest
    simp only [visitTypes, typeListSize]
    rw [reflListSize_append]
    omega

end

theorem visitTypeOpt_size (t : Option TypeVal) :
    reflListSize (visitTypeOpt t).2 ≤ typeOptSize t := by
  match t with
  | none => simp [visitTypeOpt, typeOptSize, reflListSize]
  | some t => simpa [visitTypeOpt, typeOptSize] using visitType_size t

theorem reflOptSize_toList (r : Option Reflection) :
    reflListSize r.toList = reflOptSize r := by
  match r with
  | none => simp [reflOptSize, reflListSize]
  | some r => simp [reflOptSize, reflListSize]

theorem processNode_size (r : Reflection) : reflListSize (processNode r).2 < reflSize r := by
  obtain ⟨i, c, k, n, children, type, typeParameters, signatures, indexSignature, getSignature,
    setSignature, overwrites, inheritedFrom, implementationOf, extendedTypes, eBy,
    implementedTypes, iBy, parameters, default⟩ := r
  have h1 := visitTypeOpt_size type
  have h2 := visitTypeOpt_size overwrites
  have h3 := visitTypeOpt_size inheritedFrom
  have h4 := visitTypeOpt_size implementationOf
  have h5 := visitTypes_size extendedTypes
  have h6 := visitTypes_size implementedTypes
  have h7 := visitTypeOpt_size default
  have h8 := reflOptSize_toList indexSignature
  have h9 := reflOptSize_toList getSignature
  have h10 := reflOptSize_toList setSignature
  cases c <;>
    simp [processNode, reflSize, RClass.isContainer, reflListSize_append, reflListSize] <;>
    try omega

def discoverLoop : List Symb → List Reflection → List Symb
  | missing, [] => missing
  | missing, current :: rest =>
    discoverLoop ((processNode current).1.foldl jsInsert missing) (rest ++ (processNode current).2)
termination_by _ queue => reflListSize queue
decreasing_by
  simp only [reflListSize, reflListSize_append]
  have := processNode_size current
  omega

/-- The Reference Collector (source lines 146 to 221): breadth-first worklist
traversal seeded with the root, accumulating the set of symbols referenced
with no resolved reflection.  The JavaScript Set is modelled as a duplicate
free list in insertion order; discoverLoop is the do/while loop with the
explicit queue, seeded with the root node. -/
def discoverMissingExports (root : Reflection) : List Symb :=
  discoverLoop [] [root]

mutual

/-- Modelled from the spec wording of the Reference Collector contract: the
set of missing symbols contributed by one type value.  A symbol reference
with no resolved reflection contributes its symbol (when it carries one); an
inline reflection type contributes the missing symbols of its wrapped
declaration (the worklist route) and nothing directly; composite shapes and
type arguments are walked generically.  This structural definition is the
specification side of the refinement proof against discoverMissingExports. -/
def specTypeMissing : TypeVal → List Symb
  | .refType sym resolvedTo args =>
    (match resolvedTo, sym with
     | none, some s => [s]
     | _, _ => []) ++ specTypeListMissing args
  | .reflType decl => specReflMissing decl
  | .other parts => specTypeListMissing parts

/-- Spec-side missing symbols of a list of type values. -/
def specTypeListMissing : List TypeVal → List Symb
  | [] => []
  | t :: ts => specTypeMissing t ++ specTypeListMissing ts

/-- Spec-side missing symbols of an optional type value. -/
def specTypeOptMissing : Option TypeVal → List Symb
  | none => []
  | some t => specTypeMissing t

/-- Modelled from the spec wording: the set of symbols referenced from within
the subtree rooted at a node that lack a resolved reflection, reachable
through exactly the traversed fields (children for containers; type, type
parameters, signatures, index, get and set signatures, override, inherited
and implementation markers, extended and implemented types for declarations;
parameters, type parameters and type markers for signatures; the type of a
parameter; the constraint type and default of a type parameter).  The back
reference edges extendedBy and implementedBy are not walked. -/
def specReflMissing : Reflection → List Symb
  | ⟨_, cls, _, _, children, type, typeParameters, signatures, indexSignature, getSignature,
      setSignature, overwrites, inheritedFrom, implementationOf, extendedTypes, _,
      implementedTypes, _, parameters, default⟩ =>
    (if cls.isContainer then specReflListMissing children else [])
    ++ (if cls = .declaration then
          specTypeOptMissing type ++ specReflListMissing typeParameters
          ++ specReflListMissing signatures ++ specReflOptMissing indexSignature
          ++ specReflOptMissing getSignature ++ specReflOptMissing setSignature
          ++ specTypeOptMissing overwrites ++ specTypeOptMissing inheritedFrom
          ++ specTypeOptMissing implementationOf ++ specTypeListMissing extendedTypes
          ++ specTypeListMissing implementedTypes
        else [])
    ++ (if cls = .signature then
          specReflListMissing parameters ++ specReflListMissing typeParameters
          ++ specTypeOptMissing type ++ specTypeOptMissing overwrites
          ++ specTypeOptMissing inheritedFrom ++ specTypeOptMissing implementationOf
        else [])
    ++ (if cls = .parameter then specTypeOptMissing type else [])
    ++ (if cls = .typeParameter then
          specTypeOptMissing type ++ specTypeOptMissing default
        else [])

/-- Spec-side missing symbols of a list of reflections. -/
def specReflListMissing : List Reflection → List Symb
  | [] => []
  | r :: rs => specReflMissing r ++ specReflListMissing rs

/-- Spec-side missing symbols of an optional reflection. -/
def specReflOptMissing : Option Reflection → List Symb
  | none => []
  | some r => specReflMissing r

end

theorem specReflListMissing_mem (rs : List Reflection) (s : Symb) :
    s ∈ specReflListMissing rs ↔ ∃ d ∈ rs, s ∈ specReflMissing d := by
  induction rs with
  | nil => simp [specReflListMissing]
  | cons r rest ih => simp [specReflListMissing, List.mem_append, ih]

theorem specReflOptMissing_mem (o : Option Reflection) (s : Symb) :
    s ∈ specReflOptMissing o ↔ ∃ d ∈ o.toList, s ∈ specReflMissing d := by
  match o with
  | none => simp [specReflOptMissing]
  | some r => simp [specReflOptMissing]

theorem exists_mem_append {α : Type} (P : α → Prop) (xs ys : List α) :
    (∃ d ∈ xs ++ ys, P d) ↔ (∃ d ∈ xs, P d) ∨ (∃ d ∈ ys, P d) := by
  constructor
  · rintro ⟨d, hd, h⟩
    rcases List.mem_append.mp hd with h1 | h1
    · exact Or.inl ⟨d, h1, h⟩
    · exact Or.inr ⟨d, h1, h⟩
  · rintro (⟨d, hd, h⟩ | ⟨d, hd, h⟩)
    · exact ⟨d, List.mem_append.mpr (Or.inl hd), h⟩
    · exact ⟨d, List.mem_append.mpr (Or.inr hd), h⟩

mutual

theorem specTypeMissing_decomp (t : TypeVal) (s : Symb) :
    s ∈ specTypeMissing t ↔
      s ∈ (visitType t).1 ∨ ∃ d ∈ (visitType t).2, s ∈ specReflMissing d := by
  match t with
  | .refType sym resolvedTo args =>
    have ih := specTypeListMissing_decomp args s
    simp only [specTypeMissing, visitType, List.mem_append, ih]
    match resolvedTo, sym with
    | none, some x => simp only [List.mem_singleton, List.mem_cons]; tauto
    | none, none => simp
    | some r, none => simp
    | some r, some x => simp
  | .reflType decl =>
    simp [specTypeMissing, visitType]
  | .other parts =>
    have ih := specTypeListMissing_decomp parts s
    simpa [specTypeMissing, visitType] using ih

theorem specTypeListMissing_decomp (ts : List TypeVal) (s : Symb) :
    s ∈ specTypeListMissing ts ↔
      s ∈ (visitTypes ts).1 ∨ ∃ d ∈ (visitTypes ts).2, s ∈ specReflMissing d := by
  match ts with
  | [] => simp [specTypeListMissing, visitTypes]
  | t :: rest =>
    have ih1 := specTypeMissing_decomp t s
    have ih2 := specTypeListMissing_decomp rest s
    have hv : visitTypes (t :: rest)
        = ((visitType t).1 ++ (visitTypes rest).1, (visitType t).2 ++ (visitTypes rest).2) := rfl
    show s ∈ specTypeMissing t ++ specTypeListMissing rest ↔ _
    rw [List.mem_append, ih1, ih2, hv, exists_mem_append, List.mem_append]
    exact or_or_or_comm

end

theorem specTypeOptMissing_decomp (t : Option TypeVal) (s : Symb) :
    s ∈ specTypeOptMissing t ↔
      s ∈ (visitTypeOpt t).1 ∨ ∃ d ∈ (visitTypeOpt t).2, s ∈ specReflMissing d := by
  match t with
  | none => simp [specTypeOptMissing, visitTypeOpt]
  | some t => simpa [specTypeOptMissing, visitTypeOpt] using specTypeMissing_decomp t s

theorem specTypeOptMissing_decompAt (t : Option TypeVal) (s : Symb) :
    s ∈ specTypeOptMissing t ↔
      s ∈ (visitTypeOpt t).1 ∨ ∃ d ∈ (visitTypeOpt t).2, s ∈ specReflMissing d :=
  specTypeOptMissing_decomp t s

set_option maxHeartbeats 2000000 in
theorem specReflMissing_decomp (r : Reflection) (s : Symb) :
    s ∈ specReflMissing r ↔
      s ∈ (processNode r).1 ∨ ∃ d ∈ (processNode r).2, s ∈ specReflMissing d := by
  obtain ⟨i, c, k, n, children, type, typeParameters, signatures, indexSignature, getSignature,
    setSignature, overwrites, inheritedFrom, implementationOf, extendedTypes, eBy,
    implementedTypes, iBy, parameters, default⟩ := r
  cases c <;>
    simp only [processNode, specReflMissing, RClass.isContainer, List.mem_append,
      exists_mem_append, specReflListMissing_mem, specReflOptMissing_mem,
      specTypeOptMissing_decomp, specTypeListMissing_decomp, reduceCtorEq, if_true, if_false,
      reduceIte, List.not_mem_nil, List.nil_append, List.append_nil, false_or, or_false,
      IsEmpty.exists_iff, exists_false, or_and_right, exists_or, or_assoc] <;>
    itauto

theorem jsInsert_mem (l : List Symb) (x s : Symb) :
    s ∈ jsInsert l x ↔ s ∈ l ∨ s = x := by
  unfold jsInsert
  by_cases h : x ∈ l
  · simp only [h, if_true]
    constructor
    · exact Or.inl
    · rintro (hs | rfl) <;> assumption
  · simp [h, List.mem_append]

theorem foldl_jsInsert_mem (adds : List Symb) (l : List Symb) (s : Symb) :
    s ∈ adds.foldl jsInsert l ↔ s ∈ l ∨ s ∈ adds := by
  induction adds generalizing l with
  | nil => simp
  | cons a rest ih =>
    simp only [List.foldl_cons, ih, jsInsert_mem, List.mem_cons]
    tauto

theorem discoverLoop_mem_aux (n : Nat) :
    ∀ queue : List Reflection, reflListSize queue ≤ n →
      ∀ (missing : List Symb) (s : Symb),
        (s ∈ discoverLoop missing queue ↔
          s ∈ missing ∨ ∃ r ∈ queue, s ∈ specReflMissing r) := by
  induction n with
  | zero =>
    intro queue hq missing s
    match queue with
    | [] => simp [discoverLoop]
    | r :: rest =>
      exfalso
      have h1 := reflSize_pos r
      simp only [reflListSize] at hq
      omega
  | succ n ih =>
    intro queue hq missing s
    match queue with
    | [] => simp [discoverLoop]
    | current :: rest =>
      have hsize : reflListSize (rest ++ (processNode current).2) ≤ n := by
        rw [reflListSize_append]
        have h1 := processNode_size current
        simp only [reflListSize] at hq
        omega
      have hrec := ih (rest ++ (processNode current).2) hsize
        ((processNode current).1.foldl jsInsert missing) s
      simp only [discoverLoop]
      rw [hrec, foldl_jsInsert_mem, exists_mem_append]
      have hdec := specReflMissing_decomp current s
      simp only [List.mem_cons]
      constructor
      · rintro ((h | h) | h | ⟨d, hd, hs⟩)
        · exact Or.inl h
        · exact Or.inr ⟨current, Or.inl rfl, hdec.mpr (Or.inl h)⟩
        · rcases h with ⟨d, hd, hs⟩
          exact Or.inr ⟨d, Or.inr hd, hs⟩
        · exact Or.inr ⟨current, Or.inl rfl, hdec.mpr (Or.inr ⟨d, hd, hs⟩)⟩
      · rintro (h | ⟨d, rfl | hd, hs⟩)
        · exact Or.inl (Or.inl h)
        · rcases hdec.mp hs with h | ⟨e, he, hse⟩
          · exact Or.inl (Or.inr h)
          · exact Or.inr (Or.inr ⟨e, he, hse⟩)
        · exact Or.inr (Or.inl ⟨d, hd, hs⟩)

theorem discoverLoop_mem (missing : List Symb) (queue : List Reflection) (s : Symb) :
    s ∈ discoverLoop missing queue ↔
      s ∈ missing ∨ ∃ r ∈ queue, s ∈ specReflMissing r :=
  discoverLoop_mem_aux (reflListSize queue) queue (Nat.le_refl _) missing s

theorem mem_discoverMissingExports (root : Reflection) (s : Symb) :
    s ∈ discoverMissingExports root ↔ s ∈ specReflMissing root := by
  unfold discoverMissingExports
  rw [discoverLoop_mem]
  simp

/-- Claim C5.  The Reference Collector is exactly the spec-side set: a symbol
is returned by discoverMissingExports if and only if it is carried by an
unresolved symbol reference reachable from the root through the traversed
fields, as captured by the structural specification specReflMissing, whose
reference case contributes the carried symbol of an unresolved reference and
whose inline reflection case contributes only the symbols of the wrapped
declaration (the worklist route) and never a symbol of its own. -/
theorem discoverMissingExports_eq_spec (root : Reflection) (s : Symb) :
    s ∈ discoverMissingExports root ↔ s ∈ specReflMissing root :=
  mem_discoverMissingExports root s

/-- The slice of the typedoc Context and option set consumed by
onResolveBegin, modelled at its interface: project tree, name lookup in the
ambient scope (findReflectionByName), symbol conversion (the declaration
created under the internal namespace scope by convertSymbol, when the
converter produces one), the two option values, and the identity given to a
newly created internal namespace reflection. -/
structure Context where
  project : Reflection
  findReflectionByName : String → Option Reflection
  convertSymbol : Symb → Option Reflection
  internalNamespace : String
  noMissingExports : Bool
  nsId : Nat

/-- Mutable state of one module resolution pass, made explicit: the tried
set, the log of registerReflection calls as (scope id, target reflection id,
symbol) triples, the memoized internal namespace with the children
synthesized into it so far, how many times the namespace was actually
created, and the log of convertSymbol calls. -/
structure LoopSt where
  tried : List Symb
  registrations : List (Nat × Nat × Symb)
  internalNs : Option Reflection
  nsCreations : Nat
  convertCalls : List Symb

/-- The state at the start of a module pass (source lines 77 and 99). -/
def initLoopSt : LoopSt := ⟨[], [], none, 0, []⟩

/-- The namespace reflection built by createDeclarationReflection for the
internal namespace: a declaration of namespace kind with the configured
name and no children (source lines 84 to 92). -/
def mkInternalNs (nsId : Nat) (name : String) : Reflection :=
  ⟨nsId, .declaration, .namespaceKind, name, [], none, [], [], none, none, none, none,
    none, none, [], [], [], [], [], none⟩

/-- createInternalContext (source lines 81 to 97): memoized lazy creation of
the internal namespace under the current module.  Returns the namespace
recorded in the state if one exists, otherwise creates it and counts the
creation. -/
def createInternalContext (ctx : Context) (st : LoopSt) : LoopSt × Reflection :=
  match st.internalNs with
  | some ns => (st, ns)
  | none =>
    let internalNs := mkInternalNs ctx.nsId ctx.internalNamespace
    ({ st with internalNs := some internalNs, nsCreations := st.nsCreations + 1 }, internalNs)

/-- getModule (source lines 67 to 71): the first top-level module owning the
given reflection, where owning means having a direct child of the same kind
with the same identity. -/
def getModule (modules : List Reflection) (ref : Reflection) : Option Reflection :=
  modules.find? fun mod =>
    ((mod.getChildrenByKind ref.kind).find? fun d => d.id == ref.id).isSome

/-- Appending a synthesized declaration to the children of the internal
namespace (the effect of convertSymbol under the namespace scope). -/
def Reflection.addChild (r : Reflection) (d : Reflection) : Reflection :=
  { r with children := r.children ++ [d] }

/-- The body of the for loop over the missing set (source lines 101 to 119):
mark the symbol tried; skip the reserved default name; otherwise look the
name up in the ambient scope; on a hit, register the found reflection for
the symbol under the scope of the module returned by getModule when there
is one, and in either case stop there; on a miss, skip when the no
synthesis option is set, otherwise obtain the internal namespace (creating
it on first use) and convert the symbol into it. -/
def processSymbol (ctx : Context) (modules : List Reflection) (st : LoopSt) (m : Symb) :
    LoopSt :=
  let st := { st with tried := jsInsert st.tried m }
  if m.name = "default" then st
  else
    match ctx.findReflectionByName m.name with
    | some ref =>
      match getModule modules ref with
      | some modCtx =>
        { st with registrations := st.registrations ++ [(modCtx.id, ref.id, m)] }
      | none => st
    | none =>
      if ctx.noMissingExports then st
      else
        let created := createInternalContext ctx st
        let st := { created.1 with convertCalls := created.1.convertCalls ++ [m] }
        match ctx.convertSymbol m with
        | some d => { st with internalNs := some (created.2.addChild d) }
        | none => st

/-- The do/while fixpoint loop of the driver (source lines 100 to 131),
with an explicit fuel so the recursion is total in the model; none means the
fuel ran out before the loop exited.  One round processes every currently
missing symbol, then (unless synthesis is disabled) rediscovers the missing
set of the internal namespace, then deletes every tried symbol from that
candidate set, and repeats while the candidate set is not empty. -/
def fixLoop (ctx : Context) (modules : List Reflection) :
    Nat → List Symb → LoopSt → Option LoopSt
  | 0, _, _ => none
  | fuel + 1, missing, st =>
    let st := missing.foldl (processSymbol ctx modules) st
    let step :=
      if !ctx.noMissingExports then
        let created := createInternalContext ctx st
        (created.1, discoverMissingExports created.2)
      else (st, missing)
    let missing2 := step.2.filter fun s => s ∉ step.1.tried
    if missing2.isEmpty then some step.1
    else fixLoop ctx modules fuel missing2 step.1

/-- Observable outcome of one module pass: the registration log, how many
times the internal namespace was created, the internal namespace surviving
in the final tree (none when it was never created or was removed as empty,
source lines 133 to 138), the tried set and the conversion log. -/
structure ModResult where
  registrations : List (Nat × Nat × Symb)
  nsCreations : Nat
  finalNs : Option Reflection
  tried : List Symb
  convertCalls : List Symb

/-- The outcome of a skipped module (continue at source line 75): no side
effects at all. -/
def skipResult : ModResult := ⟨[], 0, none, [], []⟩

/-- One iteration of the module loop of onResolveBegin (source lines 73 to
141): run the collector over the module and skip when nothing is missing;
otherwise run the fixpoint loop, then obtain the internal namespace
(creating it now if it never was) and remove it from the tree when it has
no children. -/
def processModule (ctx : Context) (modules : List Reflection) (fuel : Nat)
    (mod : Reflection) : Option ModResult :=
  let missing := discoverMissingExports mod
  if missing.isEmpty then some skipResult
  else
    match fixLoop ctx modules fuel missing initLoopSt with
    | none => none
    | some st =>
      let created := createInternalContext ctx st
      let finalNs := if created.2.children.isEmpty then none else some created.2
      some ⟨created.1.registrations, created.1.nsCreations, finalNs, created.1.tried,
        created.1.convertCalls⟩

/-- onResolveBegin (source lines 56 to 144): the top-level modules are the
children of the project of module kind, or the project itself when there are
none; every module is processed in order against the same module list. -/
def onResolveBegin (ctx : Context) (fuel : Nat) : Option (List ModResult) :=
  let modules := ctx.project.getChildrenByKind .module
  let modules := if modules.isEmpty then [ctx.project] else modules
  modules.mapM (processModule ctx modules fuel)

/-- An empty reflection, base for the concrete scenarios below. -/
def emptyRefl : Reflection :=
  ⟨0, .container, .project, "", [], none, [], [], none, none, none, none, none, none,
    [], [], [], [], [], none⟩

/-- Concrete scenario: symbol T, defined in module B but referenced from
module A without being exported to it. -/
def symT : Symb := ⟨100, "T"⟩

/-- The existing documented reflection for T, a direct child of module B. -/
def refT : Reflection :=
  { emptyRefl with id := 20, cls := .declaration, kind := .classKind, name := "T" }

/-- A function in module A whose type is an unresolved reference carrying T. -/
def declF : Reflection :=
  { emptyRefl with
    id := 10
    cls := .declaration
    kind := .functionKind
    name := "f"
    type := some (.refType (some symT) none []) }

/-- Module A, the module being processed in the aliasing scenario. -/
def modA : Reflection :=
  { emptyRefl with
    id := 1
    cls := .declaration
    kind := .module
    name := "A"
    children := [declF] }

/-- Module B, which owns the documented reflection for T. -/
def modB : Reflection :=
  { emptyRefl with
    id := 2
    cls := .declaration
    kind := .module
    name := "B"
    children := [refT] }

/-- The project containing modules A and B. -/
def projAB : Reflection :=
  { emptyRefl with
    id := 0
    cls := .container
    kind := .project
    name := "proj"
    children := [modA, modB] }

/-- Context for the aliasing scenario: name lookup finds the reflection for T,
synthesis is enabled and never needed. -/
def ctxAlias : Context :=
  ⟨projAB, fun n => if n = "T" then some refT else none, fun _ => none, "internal",
    false, 99⟩

theorem discover_modA_eval : discoverMissingExports modA = [symT] := by
  simp [discoverMissingExports, discoverLoop, processNode, modA, declF, emptyRefl,
    visitTypeOpt, visitType, visitTypes, jsInsert, RClass.isContainer]

theorem processModule_ctxAlias_eval : processModule ctxAlias [modA, modB] 2 modA
    = some ⟨[(2, 20, symT)], 1, none, [symT], []⟩ := by
  simp [processModule, fixLoop, processSymbol, createInternalContext, getModule,
    Reflection.getChildrenByKind, discoverMissingExports, discoverLoop, processNode,
    mkInternalNs, initLoopSt, visitTypeOpt, visitType, visitTypes, jsInsert,
    RClass.isContainer, ctxAlias, modA, modB, declF, refT, symT, emptyRefl]

/-- Claim C1 counterexample.  While the driver processes module A (id 1),
whose reference to T is missing, the name lookup finds the reflection for T
(id 20) owned by module B (id 2), and the single registration is recorded
under the scope of module B, not under the scope of the current module A:
the claim that registration happens under the current module scope fails. -/
theorem alias_registered_under_other_module_scope :
    (processModule ctxAlias [modA, modB] 2 modA).map ModResult.registrations
        = some [(modB.id, refT.id, symT)]
      ∧ modA.id = 1 ∧ modB.id = 2 ∧ modA.id ≠ modB.id := by
  rw [processModule_ctxAlias_eval]
  exact ⟨rfl, rfl, rfl, by decide⟩

/-- Claim C1 (amended).  When a missing symbol (not named default) is found
by name lookup and getModule locates an owning module for the found
reflection, the driver registers the symbol against the found reflection
under the scope of that owning module, modCtx, which coincides with the
current module only when the current module owns the found reflection. -/
theorem processSymbol_registers_owner_scope (ctx : Context) (modules : List Reflection)
    (st : LoopSt) (m : Symb) (ref modCtx : Reflection)
    (hdef : m.name ≠ "default")
    (hlook : ctx.findReflectionByName m.name = some ref)
    (hmod : getModule modules ref = some modCtx) :
    (processSymbol ctx modules st m).registrations
      = st.registrations ++ [(modCtx.id, ref.id, m)] := by
  simp [processSymbol, hdef, hlook, hmod]

theorem processSymbol_registers_owner_scope_witness :
    (processSymbol ctxAlias [modA, modB] initLoopSt symT).registrations
      = initLoopSt.registrations ++ [(modB.id, refT.id, symT)] :=
  processSymbol_registers_owner_scope ctxAlias [modA, modB] initLoopSt symT refT modB
    (by decide) rfl rfl

/-- Claim C2 counterexample.  In the aliasing scenario every missing symbol
of module A is aliased and convertSymbol is never called, yet the internal
namespace is created once (and only removed afterwards because it stayed
empty): creation is not conditional on a symbol actually being
synthesized. -/
theorem internalNs_created_without_synthesis :
    (processModule ctxAlias [modA, modB] 2 modA).map ModResult.nsCreations = some 1
      ∧ (processModule ctxAlias [modA, modB] 2 modA).map ModResult.convertCalls
          = some ([] : List Symb) := by
  rw [processModule_ctxAlias_eval]
  exact ⟨rfl, rfl⟩

/-- Invariant tying the creation counter to the memoized namespace: the
namespace has been created exactly once when it is present and never when it
is absent. -/
def nsCountOk (st : LoopSt) : Prop :=
  st.nsCreations = if st.internalNs.isSome then 1 else 0

theorem initLoopSt_nsCountOk : nsCountOk initLoopSt := rfl

theorem createInternalContext_nsCountOk (ctx : Context) (st : LoopSt) (h : nsCountOk st) :
    nsCountOk (createInternalContext ctx st).1
      ∧ (createInternalContext ctx st).1.internalNs = some (createInternalContext ctx st).2 := by
  unfold nsCountOk createInternalContext at *
  cases hst : st.internalNs with
  | some ns => simp [hst] at h ⊢; omega
  | none => simp [hst] at h ⊢; omega

theorem processSymbol_nsCountOk (ctx : Context) (modules : List Reflection) (st : LoopSt)
    (m : Symb) (h : nsCountOk st) : nsCountOk (processSymbol ctx modules st m) := by
  have h1 : nsCountOk { st with tried := jsInsert st.tried m } := h
  obtain ⟨h2a, h2b⟩ :=
    createInternalContext_nsCountOk ctx { st with tried := jsInsert st.tried m } h1
  have h3 : (createInternalContext ctx { st with tried := jsInsert st.tried m }).1.nsCreations
      = 1 := by
    unfold nsCountOk at h2a
    rw [h2b] at h2a
    simpa using h2a
  unfold processSymbol
  split
  · exact h1
  split
  · split
    · exact h1
    · exact h1
  split
  · exact h1
  split
  · unfold nsCountOk
    simp [h3]
  · unfold nsCountOk
    simp [h2b, h3]

theorem foldl_processSymbol_nsCountOk (ctx : Context) (modules : List Reflection)
    (missing : List Symb) (st : LoopSt) (h : nsCountOk st) :
    nsCountOk (missing.foldl (processSymbol ctx modules) st) := by
  induction missing generalizing st with
  | nil => exact h
  | cons m rest ih => exact ih _ (processSymbol_nsCountOk ctx modules st m h)

theorem fixLoop_nsCountOk (ctx : Context) (modules : List Reflection) :
    ∀ (fuel : Nat) (missing : List Symb) (st st2 : LoopSt), nsCountOk st →
      fixLoop ctx modules fuel missing st = some st2 → nsCountOk st2 := by
  intro fuel
  induction fuel with
  | zero => intro missing st st2 _ hfix; simp [fixLoop] at hfix
  | succ n ih =>
    intro missing st st2 h hfix
    simp only [fixLoop] at hfix
    have h1 := foldl_processSymbol_nsCountOk ctx modules missing st h
    set st1 := missing.foldl (processSymbol ctx modules) st with hst1
    cases hno : ctx.noMissingExports with
    | true =>
      simp only [hno, Bool.not_true, Bool.false_eq_true, if_false] at hfix
      split at hfix
      · exact Option.some.inj hfix ▸ h1
      · exact ih _ _ _ h1 hfix
    | false =>
      simp only [hno, Bool.not_false, if_true] at hfix
      have h2 := (createInternalContext_nsCountOk ctx st1 h1).1
      split at hfix
      · exact Option.some.inj hfix ▸ h2
      · exact ih _ _ _ h2 hfix

/-- Claim C2 (amended).  The internal namespace is created at most once per
module (the creation is memoized).  However it is not created only on first
synthesis: whenever the module has any missing symbol the driver requests
the internal context (in the rediscovery step when synthesis is enabled, and
unconditionally after the fixpoint) and so creates the namespace exactly
once even if every missing symbol was aliased or skipped; when the module
has no missing symbols the namespace is never created. -/
theorem processModule_nsCreations (ctx : Context) (modules : List Reflection) (fuel : Nat)
    (mod : Reflection) (r : ModResult)
    (h : processModule ctx modules fuel mod = some r) :
    r.nsCreations ≤ 1 ∧ (discoverMissingExports mod = [] ↔ r.nsCreations = 0) := by
  simp only [processModule] at h
  split at h
  · rename_i hempty
    cases h
    refine ⟨by decide, ?_, ?_⟩
    · intro _
      rfl
    · intro _
      exact List.isEmpty_iff.mp hempty
  · rename_i hne
    split at h
    · cases h
    · rename_i st hfix
      have h1 := fixLoop_nsCountOk ctx modules fuel (discoverMissingExports mod)
        initLoopSt st initLoopSt_nsCountOk hfix
      have h2 := createInternalContext_nsCountOk ctx st h1
      have h3 : (createInternalContext ctx st).1.nsCreations = 1 := by
        have := h2.1
        unfold nsCountOk at this
        simp [h2.2] at this
        exact this
      cases h
      refine ⟨by simp [h3], ?_, ?_⟩
      · intro hemp
        exfalso
        exact hne (by simp [hemp])
      · intro h0
        simp [h3] at h0

theorem processModule_nsCreations_witness :
    (⟨[(modB.id, refT.id, symT)], 1, none, [symT], []⟩ : ModResult).nsCreations ≤ 1
      ∧ (discoverMissingExports modA = []
          ↔ (⟨[(modB.id, refT.id, symT)], 1, none, [symT], []⟩ : ModResult).nsCreations = 0) :=
  processModule_nsCreations ctxAlias [modA, modB] 2 modA _ processModule_ctxAlias_eval

/-- Claim C4.  After the fixpoint of a module pass an internal namespace
with no children is removed from the tree: whenever the pass leaves an
internal namespace in the final tree, that namespace has at least one child,
so the final tree never contains an empty synthetic container. -/
theorem finalNs_not_empty (ctx : Context) (modules : List Reflection) (fuel : Nat)
    (mod : Reflection) (r : ModResult) (ns : Reflection)
    (h : processModule ctx modules fuel mod = some r) (hns : r.finalNs = some ns) :
    ns.children ≠ [] := by
  simp only [processModule] at h
  split at h
  · cases h
    simp [skipResult] at hns
  · split at h
    · cases h
    · rename_i st hfix
      cases h
      simp only at hns
      split at hns
      · cases hns
      · rename_i hne2
        cases hns
        simpa using hne2

/-- Concrete synthesis scenario: symbol U referenced from module C with no
documented reflection anywhere; conversion produces the declaration for U. -/
def symU : Symb := ⟨200, "U"⟩

/-- The declaration synthesized for U by convertSymbol. -/
def declU : Reflection :=
  { emptyRefl with
    id := 30
    cls := .declaration
    kind := .interfaceKind
    name := "U" }

/-- A function in module C whose type is an unresolved reference carrying U. -/
def declG : Reflection :=
  { emptyRefl with
    id := 11
    cls := .declaration
    kind := .functionKind
    name := "g"
    type := some (.refType (some symU) none []) }

/-- Module C, processed in the synthesis scenarios. -/
def modC : Reflection :=
  { emptyRefl with
    id := 3
    cls := .declaration
    kind := .module
    name := "C"
    children := [declG] }

/-- Context for the synthesis scenario: lookup never succeeds, synthesis is
enabled and converts U into its declaration. -/
def ctxSynth : Context :=
  ⟨{ emptyRefl with children := [modC] }, fun _ => none,
    fun m => if m = symU then some declU else none, "internal", false, 98⟩

theorem processModule_ctxSynth_eval :
    processModule ctxSynth [modC] 2 modC
      = some ⟨[], 1, some ((mkInternalNs 98 "internal").addChild declU), [symU], [symU]⟩ := by
  simp [processModule, fixLoop, processSymbol, createInternalContext, getModule,
    Reflection.getChildrenByKind, discoverMissingExports, discoverLoop, processNode,
    mkInternalNs, initLoopSt, visitTypeOpt, visitType, visitTypes, jsInsert,
    RClass.isContainer, Reflection.addChild, ctxSynth, modC, declG, declU, symU, emptyRefl]

theorem finalNs_not_empty_witness :
    ((mkInternalNs 98 "internal").addChild declU).children ≠ [] :=
  finalNs_not_empty ctxSynth [modC] 2 modC _ _ processModule_ctxSynth_eval rfl

/-- Claim C6.  Over a module that is already fully resolved (no reachable
unresolved symbol reference, the state after a complete first run), running
the driver again is a no-op: the collector returns the empty missing set and
the module is skipped with no side effects. -/
theorem resolved_module_skipped (ctx : Context) (modules : List Reflection) (fuel : Nat)
    (mod : Reflection) (h : ∀ s, s ∉ specReflMissing mod) :
    discoverMissingExports mod = []
      ∧ processModule ctx modules fuel mod = some skipResult := by
  have hempty : discoverMissingExports mod = [] := by
    rw [List.eq_nil_iff_forall_not_mem]
    intro s
    rw [mem_discoverMissingExports]
    exact h s
  refine ⟨hempty, ?_⟩
  simp [processModule, hempty]

/-- A declaration whose reference to T is already resolved (it points at
reflection 20). -/
def declR : Reflection :=
  { emptyRefl with
    id := 12
    cls := .declaration
    kind := .functionKind
    name := "h"
    type := some (.refType (some symT) (some 20) []) }

/-- A fully resolved module. -/
def modR : Reflection :=
  { emptyRefl with
    id := 4
    cls := .declaration
    kind := .module
    name := "R"
    children := [declR] }

theorem resolved_module_skipped_witness :
    discoverMissingExports modR = []
      ∧ processModule ctxAlias [modR] 2 modR = some skipResult :=
  resolved_module_skipped ctxAlias [modR] 2 modR (by
    intro s
    simp [specReflMissing, modR, declR, emptyRefl, specReflListMissing, specTypeOptMissing,
      specTypeMissing, specTypeListMissing, specReflOptMissing, RClass.isContainer])

/-- Claim C8.  A missing symbol whose name is the reserved default export
marker is skipped before the lookup, registration and synthesis paths: the
only effect of processing it is the tried mark, so it is never aliased nor
synthesized and always stays unresolved. -/
theorem default_symbol_skipped (ctx : Context) (modules : List Reflection) (st : LoopSt)
    (m : Symb) (hname : m.name = "default") :
    processSymbol ctx modules st m = { st with tried := jsInsert st.tried m } := by
  simp [processSymbol, hname]

/-- A symbol named with the reserved default export marker. -/
def symDefault : Symb := ⟨300, "default"⟩

theorem default_symbol_skipped_witness :
    processSymbol ctxAlias [modA, modB] initLoopSt symDefault
      = { initLoopSt with tried := jsInsert initLoopSt.tried symDefault } :=
  default_symbol_skipped ctxAlias [modA, modB] initLoopSt symDefault rfl

/-- Claim C9.  When the name lookup finds an existing reflection but
getModule cannot locate an owning module for it, the symbol is silently
dropped for the round: apart from the tried mark the state is unchanged, so
no binding is registered and no synthesis happens for that symbol. -/
theorem unowned_alias_dropped (ctx : Context) (modules : List Reflection) (st : LoopSt)
    (m : Symb) (ref : Reflection) (hname : m.name ≠ "default")
    (hlook : ctx.findReflectionByName m.name = some ref)
    (hmod : getModule modules ref = none) :
    processSymbol ctx modules st m = { st with tried := jsInsert st.tried m } := by
  simp [processSymbol, hname, hlook, hmod]

theorem unowned_alias_dropped_witness :
    processSymbol ctxAlias [] initLoopSt symT
      = { initLoopSt with tried := jsInsert initLoopSt.tried symT } :=
  unowned_alias_dropped ctxAlias [] initLoopSt symT refT (by decide) rfl rfl

/-- Invariant of a pass running with noMissingExports: the loop never
creates the internal namespace, never converts a symbol, and every logged
registration is for a symbol whose name lookup succeeded. -/
def noSynthInv (ctx : Context) (st : LoopSt) : Prop :=
  st.internalNs = none ∧ st.convertCalls = [] ∧
    ∀ p ∈ st.registrations, ctx.findReflectionByName p.2.2.name ≠ none

theorem initLoopSt_noSynthInv (ctx : Context) : noSynthInv ctx initLoopSt := by
  refine ⟨rfl, rfl, ?_⟩
  intro p hp
  simp [initLoopSt] at hp

theorem processSymbol_noSynthInv (ctx : Context) (modules : List Reflection) (st : LoopSt)
    (m : Symb) (hopt : ctx.noMissingExports = true) (h : noSynthInv ctx st) :
    noSynthInv ctx (processSymbol ctx modules st m) := by
  obtain ⟨hns, hcv, hreg⟩ := h
  unfold processSymbol
  split
  · exact ⟨hns, hcv, hreg⟩
  split
  next ref hlook =>
    split
    next modCtx hmod =>
      refine ⟨hns, hcv, ?_⟩
      intro p hp
      rcases List.mem_append.mp hp with hp | hp
      · exact hreg p hp
      · simp only [List.mem_singleton] at hp
        subst hp
        simp [hlook]
    next hmod => exact ⟨hns, hcv, hreg⟩
  next hlook =>
    simp only [hopt, if_true]
    exact ⟨hns, hcv, hreg⟩

theorem foldl_processSymbol_noSynthInv (ctx : Context) (modules : List Reflection)
    (hopt : ctx.noMissingExports = true) (missing : List Symb) (st : LoopSt)
    (h : noSynthInv ctx st) :
    noSynthInv ctx (missing.foldl (processSymbol ctx modules) st) := by
  induction missing generalizing st with
  | nil => exact h
  | cons m rest ih => exact ih _ (processSymbol_noSynthInv ctx modules st m hopt h)

theorem fixLoop_noSynthInv (ctx : Context) (modules : List Reflection)
    (hopt : ctx.noMissingExports = true) :
    ∀ (fuel : Nat) (missing : List Symb) (st st2 : LoopSt), noSynthInv ctx st →
      fixLoop ctx modules fuel missing st = some st2 → noSynthInv ctx st2 := by
  intro fuel
  induction fuel with
  | zero => intro missing st st2 _ hfix; simp [fixLoop] at hfix
  | succ n ih =>
    intro missing st st2 h hfix
    simp only [fixLoop, hopt, Bool.not_true, Bool.false_eq_true, if_false] at hfix
    have h1 := foldl_processSymbol_noSynthInv ctx modules hopt missing st h
    split at hfix
    · exact Option.some.inj hfix ▸ h1
    · exact ih _ _ _ h1 hfix

/-- Claim C7.  With the no synthesis option set, a missing symbol with no
documented reflection anywhere (its name lookup fails) is left completely
unresolved: convertSymbol is never called during the pass, every
registration belongs to a symbol whose lookup succeeded, and the final tree
of the module keeps no internal namespace. -/
theorem noMissingExports_leaves_unresolved (ctx : Context) (modules : List Reflection)
    (fuel : Nat) (mod : Reflection) (r : ModResult)
    (hopt : ctx.noMissingExports = true)
    (h : processModule ctx modules fuel mod = some r) :
    r.finalNs = none ∧ r.convertCalls = [] ∧
      ∀ p ∈ r.registrations, ctx.findReflectionByName p.2.2.name ≠ none := by
  simp only [processModule] at h
  split at h
  · cases h
    refine ⟨rfl, rfl, ?_⟩
    intro p hp
    simp [skipResult] at hp
  · split at h
    · cases h
    · rename_i st hfix
      obtain ⟨hns, hcv, hreg⟩ := fixLoop_noSynthInv ctx modules hopt fuel
        (discoverMissingExports mod) initLoopSt st (initLoopSt_noSynthInv ctx) hfix
      have hcreated : createInternalContext ctx st
          = ({ st with
                internalNs := some (mkInternalNs ctx.nsId ctx.internalNamespace)
                nsCreations := st.nsCreations + 1 },
             mkInternalNs ctx.nsId ctx.internalNamespace) := by
        unfold createInternalContext
        rw [hns]
      cases h
      rw [hcreated]
      refine ⟨by simp [mkInternalNs], hcv, hreg⟩

/-- Context for the no synthesis scenario over module C. -/
def ctxNoSynth : Context :=
  ⟨{ emptyRefl with children := [modC] }, fun _ => none, fun _ => none, "internal", true, 97⟩

theorem processModule_ctxNoSynth_eval :
    processModule ctxNoSynth [modC] 2 modC = some ⟨[], 1, none, [symU], []⟩ := by
  simp [processModule, fixLoop, processSymbol, createInternalContext, getModule,
    Reflection.getChildrenByKind, discoverMissingExports, discoverLoop, processNode,
    mkInternalNs, initLoopSt, visitTypeOpt, visitType, visitTypes, jsInsert,
    RClass.isContainer, ctxNoSynth, modC, declG, symU, emptyRefl]

theorem noMissingExports_leaves_unresolved_witness :
    (⟨[], 1, none, [symU], []⟩ : ModResult).finalNs = none
      ∧ (⟨[], 1, none, [symU], []⟩ : ModResult).convertCalls = []
      ∧ ∀ p ∈ (⟨[], 1, none, [symU], []⟩ : ModResult).registrations,
          ctxNoSynth.findReflectionByName p.2.2.name ≠ none :=
  noMissingExports_leaves_unresolved ctxNoSynth [modC] 2 modC _ rfl
    processModule_ctxNoSynth_eval

theorem createInternalContext_tried (ctx : Context) (st : LoopSt) :
    (createInternalContext ctx st).1.tried = st.tried := by
  obtain ⟨tr, reg, ns, nc, cc⟩ := st
  cases ns <;> rfl

theorem processSymbol_tried (ctx : Context) (modules : List Reflection) (st : LoopSt)
    (m : Symb) : (processSymbol ctx modules st m).tried = jsInsert st.tried m := by
  have hc := createInternalContext_tried ctx { st with tried := jsInsert st.tried m }
  unfold processSymbol
  split
  · rfl
  split
  next ref hlook => split <;> rfl
  next hlook =>
    split
    · rfl
    · split <;> exact hc

theorem foldl_processSymbol_tried (ctx : Context) (modules : List Reflection)
    (missing : List Symb) (st : LoopSt) :
    (missing.foldl (processSymbol ctx modules) st).tried
      = missing.foldl jsInsert st.tried := by
  induction missing generalizing st with
  | nil => rfl
  | cons m rest ih => simp only [List.foldl_cons, ih, processSymbol_tried]

theorem jsInsert_nodup (l : List Symb) (x : Symb) (h : l.Nodup) : (jsInsert l x).Nodup := by
  unfold jsInsert
  split
  · exact h
  · rename_i hx
    simp [List.nodup_append, h, hx]

theorem foldl_jsInsert_nodup (adds l : List Symb) (h : l.Nodup) :
    (adds.foldl jsInsert l).Nodup := by
  induction adds generalizing l with
  | nil => exact h
  | cons a rest ih => exact ih _ (jsInsert_nodup l a h)

theorem specReflListMissing_append (xs ys : List Reflection) :
    specReflListMissing (xs ++ ys) = specReflListMissing xs ++ specReflListMissing ys := by
  induction xs with
  | nil => simp [specReflListMissing]
  | cons r rest ih => simp [specReflListMissing, ih]

theorem spec_addChild_mem (r d : Reflection) (s : Symb)
    (h : s ∈ specReflMissing (r.addChild d)) :
    s ∈ specReflMissing r ∨ s ∈ specReflMissing d := by
  obtain ⟨i, c, k, n, children, type, typeParameters, signatures, indexSignature, getSignature,
    setSignature, overwrites, inheritedFrom, implementationOf, extendedTypes, eBy,
    implementedTypes, iBy, parameters, default⟩ := r
  unfold Reflection.addChild at h
  cases c <;>
    simp only [specReflMissing, specReflListMissing_append, specReflListMissing,
      List.mem_append, List.append_nil, List.not_mem_nil, RClass.isContainer,
      reduceIte, reduceCtorEq, if_true, if_false, false_or, or_false] at h ⊢ <;>
    tauto

theorem discover_mkInternalNs (i : Nat) (n : String) :
    discoverMissingExports (mkInternalNs i n) = [] := by
  simp [discoverMissingExports, discoverLoop, processNode, mkInternalNs, visitTypeOpt,
    visitType, visitTypes, jsInsert, RClass.isContainer]

/-- During a module pass every symbol that the rediscovery step over the
internal namespace can produce stays inside the finite universe U. -/
def nsMissingBound (U : Finset Symb) (st : LoopSt) : Prop :=
  ∀ ns, st.internalNs = some ns → ∀ s, s ∈ discoverMissingExports ns → s ∈ U

theorem initLoopSt_nsMissingBound (U : Finset Symb) : nsMissingBound U initLoopSt := by
  intro ns hns
  simp [initLoopSt] at hns

theorem createInternalContext_nsMissingBound (ctx : Context) (st : LoopSt) (U : Finset Symb)
    (h : nsMissingBound U st) :
    nsMissingBound U (createInternalContext ctx st).1
      ∧ ∀ s, s ∈ discoverMissingExports (createInternalContext ctx st).2 → s ∈ U := by
  obtain ⟨tr, reg, ns, nc, cc⟩ := st
  cases ns with
  | some ns0 =>
    refine ⟨h, ?_⟩
    intro s hs
    exact h ns0 rfl s hs
  | none =>
    refine ⟨?_, ?_⟩
    · intro ns2 hns2 s hs
      have hns3 : ns2 = mkInternalNs ctx.nsId ctx.internalNamespace := by
        have : some (mkInternalNs ctx.nsId ctx.internalNamespace) = some ns2 := hns2
        exact (Option.some.inj this).symm
      subst hns3
      rw [discover_mkInternalNs] at hs
      simp at hs
    · intro s hs
      have heq : (createInternalContext ctx ⟨tr, reg, none, nc, cc⟩).2
          = mkInternalNs ctx.nsId ctx.internalNamespace := rfl
      rw [heq, discover_mkInternalNs] at hs
      simp at hs

theorem processSymbol_nsMissingBound (ctx : Context) (modules : List Reflection)
    (st : LoopSt) (m : Symb) (U : Finset Symb)
    (hconv : ∀ mm d, ctx.convertSymbol mm = some d → ∀ s ∈ specReflMissing d, s ∈ U)
    (h : nsMissingBound U st) : nsMissingBound U (processSymbol ctx modules st m) := by
  have h1 : nsMissingBound U { st with tried := jsInsert st.tried m } := h
  obtain ⟨hb1, hb2⟩ := createInternalContext_nsMissingBound ctx
    { st with tried := jsInsert st.tried m } U h1
  unfold processSymbol
  split
  · exact h1
  split
  next ref hlook =>
    split
    · intro ns hns s hs
      exact h1 ns hns s hs
    · exact h1
  next hlook =>
    split
    · exact h1
    · split
      next d hd =>
        intro ns hns s hs
        have hns2 : ns = (createInternalContext ctx
            { st with tried := jsInsert st.tried m }).2.addChild d := by
          have : some ((createInternalContext ctx
              { st with tried := jsInsert st.tried m }).2.addChild d) = some ns := hns
          exact (Option.some.inj this).symm
        subst hns2
        rcases spec_addChild_mem _ d s ((mem_discoverMissingExports _ s).mp hs) with h2 | h2
        · exact hb2 s ((mem_discoverMissingExports _ s).mpr h2)
        · exact hconv m d hd s h2
      next hd =>
        intro ns hns s hs
        exact hb1 ns hns s hs

theorem foldl_processSymbol_nsMissingBound (ctx : Context) (modules : List Reflection)
    (missing : List Symb) (st : LoopSt) (U : Finset Symb)
    (hconv : ∀ mm d, ctx.convertSymbol mm = some d → ∀ s ∈ specReflMissing d, s ∈ U)
    (h : nsMissingBound U st) :
    nsMissingBound U (missing.foldl (processSymbol ctx modules) st) := by
  induction missing generalizing st with
  | nil => exact h
  | cons m rest ih =>
    exact ih _ (processSymbol_nsMissingBound ctx modules st m U hconv h)

theorem fixLoop_isSome_aux (ctx : Context) (modules : List Reflection) (U : Finset Symb)
    (hconv : ∀ m d, ctx.convertSymbol m = some d → ∀ s ∈ specReflMissing d, s ∈ U) :
    ∀ (fuel : Nat) (missing : List Symb) (st : LoopSt),
      (∀ s ∈ missing, s ∈ U) → missing ≠ [] → (∀ s ∈ missing, s ∉ st.tried) →
      st.tried.Nodup → (∀ s ∈ st.tried, s ∈ U) → nsMissingBound U st →
      (U \ st.tried.toFinset).card < fuel →
      (fixLoop ctx modules fuel missing st).isSome := by
  intro fuel
  induction fuel with
  | zero =>
    intro missing st _ _ _ _ _ _ hcard
    omega
  | succ n ih =>
    intro missing st hmU hne hdisj hnodup htU hnsb hcard
    set st1 := missing.foldl (processSymbol ctx modules) st with hst1
    have htried1 : st1.tried = missing.foldl jsInsert st.tried :=
      foldl_processSymbol_tried ctx modules missing st
    have htried1mem : ∀ s, s ∈ st1.tried ↔ s ∈ st.tried ∨ s ∈ missing := by
      intro s
      rw [htried1, foldl_jsInsert_mem]
    have htried1nodup : st1.tried.Nodup := by
      rw [htried1]
      exact foldl_jsInsert_nodup _ _ hnodup
    have htried1U : ∀ s ∈ st1.tried, s ∈ U := by
      intro s hs
      rcases (htried1mem s).mp hs with h | h
      · exact htU s h
      · exact hmU s h
    have hnsb1 : nsMissingBound U st1 :=
      foldl_processSymbol_nsMissingBound ctx modules missing st U hconv hnsb
    obtain ⟨x, hx⟩ : ∃ x, x ∈ missing := by
      cases missing with
      | nil => exact absurd rfl hne
      | cons a rest => exact ⟨a, List.mem_cons_self a rest⟩
    have hsub : st.tried.toFinset ⊆ st1.tried.toFinset := by
      intro y hy
      rw [List.mem_toFinset] at *
      exact (htried1mem y).mpr (Or.inl hy)
    have hcardlt : (U \ st1.tried.toFinset).card < (U \ st.tried.toFinset).card := by
      apply Finset.card_lt_card
      rw [Finset.ssubset_iff_of_subset]
      · refine ⟨x, ?_, ?_⟩
        · rw [Finset.mem_sdiff, List.mem_toFinset]
          exact ⟨hmU x hx, hdisj x hx⟩
        · rw [Finset.mem_sdiff, List.mem_toFinset]
          intro hc
          exact hc.2 ((htried1mem x).mpr (Or.inr hx))
      · intro y hy
        rw [Finset.mem_sdiff] at hy ⊢
        exact ⟨hy.1, fun hc => hy.2 (hsub hc)⟩
    cases hno : ctx.noMissingExports with
    | true =>
      have hfilter : (missing.filter fun s => s ∉ st1.tried) = [] := by
        rw [List.filter_eq_nil_iff]
        intro a ha
        simp [(htried1mem a).mpr (Or.inr ha)]
      simp only [fixLoop, hno, Bool.not_true, Bool.false_eq_true, if_false, ← hst1,
        hfilter, List.isEmpty_nil, if_true, Option.isSome_some]
    | false =>
      simp only [fixLoop, hno, Bool.not_false, if_true, ← hst1]
      obtain ⟨hb1, hb2⟩ := createInternalContext_nsMissingBound ctx st1 U hnsb1
      have hctried : (createInternalContext ctx st1).1.tried = st1.tried :=
        createInternalContext_tried ctx st1
      split
      · simp
      · rename_i hne2
        apply ih
        · intro s hs
          rw [List.mem_filter] at hs
          exact hb2 s hs.1
        · intro hc
          rw [hc] at hne2
          simp at hne2
        · intro s hs
          rw [List.mem_filter] at hs
          simpa using hs.2
        · rw [hctried]
          exact htried1nodup
        · rw [hctried]
          exact htried1U
        · exact hb1
        · rw [hctried]
          omega

/-- Claim C3.  The per-module fixpoint loop terminates on every finite
documentation universe: every symbol processed in a round is first added to
the tried set, the tried set is subtracted from each rediscovered candidate
set, so no symbol is ever reprocessed and the number of rounds is bounded by
the number of distinct symbols.  Concretely, when every initially missing
symbol and every symbol discoverable from a synthesized declaration lies in
a finite universe U, the loop reaches its fixpoint within card U + 1 rounds:
running it with any fuel above card U never exhausts the fuel. -/
theorem fixLoop_terminates (ctx : Context) (modules : List Reflection) (U : Finset Symb)
    (missing : List Symb) (fuel : Nat)
    (hconv : ∀ m d, ctx.convertSymbol m = some d → ∀ s ∈ specReflMissing d, s ∈ U)
    (hmissing : ∀ s ∈ missing, s ∈ U) (hne : missing ≠ []) (hfuel : U.card < fuel) :
    (fixLoop ctx modules fuel missing initLoopSt).isSome := by
  apply fixLoop_isSome_aux ctx modules U hconv fuel missing initLoopSt hmissing hne
  · intro s _
    simp [initLoopSt]
  · simp [initLoopSt]
  · intro s hs
    simp [initLoopSt] at hs
  · exact initLoopSt_nsMissingBound U
  · simpa [initLoopSt] using hfuel

/-- Context with no lookup hits and no conversions, used as a small
termination witness. -/
def ctxTiny : Context := ⟨emptyRefl, fun _ => none, fun _ => none, "internal", true, 0⟩

theorem fixLoop_terminates_witness :
    (fixLoop ctxTiny [] 2 [symT] initLoopSt).isSome :=
  fixLoop_terminates ctxTiny [] {symT} [symT] 2
    (by intro m d hmd; simp [ctxTiny] at hmd)
    (by intro s hs; simp only [List.mem_singleton] at hs; simp [hs])
    (by simp)
    (by simp)

mutual

/-- Evidence that a type value holds, through the positions the visitor
walks, an unresolved symbol reference whose getSymbol yields s: either the
reference itself (no resolved reflection and carrying exactly s) or a
recursively visited position, including the declaration wrapped by an inline
reflection type. -/
inductive TypeCarries (s : Symb) : TypeVal → Prop where
  | here (args : List TypeVal) : TypeCarries s (.refType (some s) none args)
  | inArg {sym : Option Symb} {resolvedTo : Option Nat} {args : List TypeVal} {t : TypeVal} :
      t ∈ args → TypeCarries s t → TypeCarries s (.refType sym resolvedTo args)
  | inPart {parts : List TypeVal} {t : TypeVal} :
      t ∈ parts → TypeCarries s t → TypeCarries s (.other parts)
  | inDecl {d : Reflection} : ReflCarries s d → TypeCarries s (.reflType d)

/-- Evidence that the subtree of a reflection, through the traversed fields
only, holds an unresolved symbol reference whose getSymbol yields s. -/
inductive ReflCarries (s : Symb) : Reflection → Prop where
  | inChild {r c : Reflection} : r.cls.isContainer = true →
      c ∈ r.children → ReflCarries s c → ReflCarries s r
  | inType {r : Reflection} {t : TypeVal} : r.cls ≠ .container → r.type = some t →
      TypeCarries s t → ReflCarries s r
  | inTypeParam {r c : Reflection} : (r.cls = .declaration ∨ r.cls = .signature) →
      c ∈ r.typeParameters → ReflCarries s c → ReflCarries s r
  | inSig {r c : Reflection} : r.cls = .declaration →
      c ∈ r.signatures → ReflCarries s c → ReflCarries s r
  | inIndexSig {r c : Reflection} : r.cls = .declaration → r.indexSignature = some c →
      ReflCarries s c → ReflCarries s r
  | inGetSig {r c : Reflection} : r.cls = .declaration → r.getSignature = some c →
      ReflCarries s c → ReflCarries s r
  | inSetSig {r c : Reflection} : r.cls = .declaration → r.setSignature = some c →
      ReflCarries s c → ReflCarries s r
  | inOverwrites {r : Reflection} {t : TypeVal} :
      (r.cls = .declaration ∨ r.cls = .signature) →
      r.overwrites = some t → TypeCarries s t → ReflCarries s r
  | inInheritedFrom {r : Reflection} {t : TypeVal} :
      (r.cls = .declaration ∨ r.cls = .signature) →
      r.inheritedFrom = some t → TypeCarries s t → ReflCarries s r
  | inImplementationOf {r : Reflection} {t : TypeVal} :
      (r.cls = .declaration ∨ r.cls = .signature) →
      r.implementationOf = some t → TypeCarries s t → ReflCarries s r
  | inExtended {r : Reflection} {t : TypeVal} : r.cls = .declaration →
      t ∈ r.extendedTypes → TypeCarries s t → ReflCarries s r
  | inImplemented {r : Reflection} {t : TypeVal} : r.cls = .declaration →
      t ∈ r.implementedTypes → TypeCarries s t → ReflCarries s r
  | inParam {r c : Reflection} : r.cls = .signature →
      c ∈ r.parameters → ReflCarries s c → ReflCarries s r
  | inDefault {r : Reflection} {t : TypeVal} : r.cls = .typeParameter →
      r.default = some t → TypeCarries s t → ReflCarries s r

end

mutual

theorem specTypeMissing_carries (t : TypeVal) (s : Symb) (h : s ∈ specTypeMissing t) :
    TypeCarries s t := by
  match t with
  | .refType (some x) none args =>
    simp only [specTypeMissing, List.mem_append, List.mem_singleton] at h
    rcases h with h | h
    · subst h
      exact TypeCarries.here args
    · obtain ⟨t2, ht2, hc⟩ := specTypeListMissing_carries args s h
      exact TypeCarries.inArg ht2 hc
  | .refType none none args =>
    simp only [specTypeMissing, List.nil_append] at h
    obtain ⟨t2, ht2, hc⟩ := specTypeListMissing_carries args s h
    exact TypeCarries.inArg ht2 hc
  | .refType (some x) (some rr) args =>
    simp only [specTypeMissing, List.nil_append] at h
    obtain ⟨t2, ht2, hc⟩ := specTypeListMissing_carries args s h
    exact TypeCarries.inArg ht2 hc
  | .refType none (some rr) args =>
    simp only [specTypeMissing, List.nil_append] at h
    obtain ⟨t2, ht2, hc⟩ := specTypeListMissing_carries args s h
    exact TypeCarries.inArg ht2 hc
  | .reflType decl =>
    rw [specTypeMissing] at h
    exact TypeCarries.inDecl (specReflMissing_carries decl s h)
  | .other parts =>
    rw [specTypeMissing] at h
    obtain ⟨t2, ht2, hc⟩ := specTypeListMissing_carries parts s h
    exact TypeCarries.inPart ht2 hc

theorem specTypeListMissing_carries (ts : List TypeVal) (s : Symb)
    (h : s ∈ specTypeListMissing ts) : ∃ t ∈ ts, TypeCarries s t := by
  match ts with
  | [] => simp [specTypeListMissing] at h
  | t :: rest =>
    rw [specTypeListMissing, List.mem_append] at h
    rcases h with h | h
    · exact ⟨t, List.mem_cons_self t rest, specTypeMissing_carries t s h⟩
    · obtain ⟨t2, ht2, hc⟩ := specTypeListMissing_carries rest s h
      exact ⟨t2, List.mem_cons_of_mem t ht2, hc⟩

theorem specTypeOptMissing_carries (topt : Option TypeVal) (s : Symb)
    (h : s ∈ specTypeOptMissing topt) : ∃ t, topt = some t ∧ TypeCarries s t := by
  match topt with
  | none => simp [specTypeOptMissing] at h
  | some t =>
    rw [specTypeOptMissing] at h
    exact ⟨t, rfl, specTypeMissing_carries t s h⟩

theorem specReflOptMissing_carries (ropt : Option Reflection) (s : Symb)
    (h : s ∈ specReflOptMissing ropt) : ∃ c, ropt = some c ∧ ReflCarries s c := by
  match ropt with
  | none => simp [specReflOptMissing] at h
  | some c =>
    rw [specReflOptMissing] at h
    exact ⟨c, rfl, specReflMissing_carries c s h⟩

theorem specReflListMissing_carries (rs : List Reflection) (s : Symb)
    (h : s ∈ specReflListMissing rs) : ∃ c ∈ rs, ReflCarries s c := by
  match rs with
  | [] => simp [specReflListMissing] at h
  | c :: rest =>
    rw [specReflListMissing, List.mem_append] at h
    rcases h with h | h
    · exact ⟨c, List.mem_cons_self c rest, specReflMissing_carries c s h⟩
    · obtain ⟨c2, hc2, hc⟩ := specReflListMissing_carries rest s h
      exact ⟨c2, List.mem_cons_of_mem c hc2, hc⟩

theorem specReflMissing_carries (r : Reflection) (s : Symb) (h : s ∈ specReflMissing r) :
    ReflCarries s r := by
  match r with
  | ⟨i, c, k, n, children, type, typeParameters, signatures, indexSignature, getSignature,
      setSignature, overwrites, inheritedFrom, implementationOf, extendedTypes, eBy,
      implementedTypes, iBy, parameters, default⟩ =>
    match c with
    | .container =>
      simp only [specReflMissing, RClass.isContainer, reduceCtorEq, reduceIte, if_true,
        if_false, List.mem_append, List.not_mem_nil, List.append_nil, List.nil_append,
        false_or, or_false, or_assoc] at h
      obtain ⟨c2, hc2, hcar⟩ := specReflListMissing_carries children s h
      exact ReflCarries.inChild rfl hc2 hcar
    | .declaration =>
      simp only [specReflMissing, RClass.isContainer, reduceCtorEq, reduceIte, if_true,
        if_false, List.mem_append, List.not_mem_nil, List.append_nil, List.nil_append,
        false_or, or_false, or_assoc] at h
      rcases h with h | h | h | h | h | h | h | h | h | h | h | h
      · obtain ⟨c2, hc2, hcar⟩ := specReflListMissing_carries children s h
        exact ReflCarries.inChild rfl hc2 hcar
      · obtain ⟨t, ht, hcar⟩ := specTypeOptMissing_carries type s h
        exact ReflCarries.inType (by simp) ht hcar
      · obtain ⟨c2, hc2, hcar⟩ := specReflListMissing_carries typeParameters s h
        exact ReflCarries.inTypeParam (Or.inl rfl) hc2 hcar
      · obtain ⟨c2, hc2, hcar⟩ := specReflListMissing_carries signatures s h
        exact ReflCarries.inSig rfl hc2 hcar
      · obtain ⟨c2, hc2, hcar⟩ := specReflOptMissing_carries indexSignature s h
        exact ReflCarries.inIndexSig rfl hc2 hcar
      · obtain ⟨c2, hc2, hcar⟩ := specReflOptMissing_carries getSignature s h
        exact ReflCarries.inGetSig rfl hc2 hcar
      · obtain ⟨c2, hc2, hcar⟩ := specReflOptMissing_carries setSignature s h
        exact ReflCarries.inSetSig rfl hc2 hcar
      · obtain ⟨t, ht, hcar⟩ := specTypeOptMissing_carries overwrites s h
        exact ReflCarries.inOverwrites (Or.inl rfl) ht hcar
      · obtain ⟨t, ht, hcar⟩ := specTypeOptMissing_carries inheritedFrom s h
        exact ReflCarries.inInheritedFrom (Or.inl rfl) ht hcar
      · obtain ⟨t, ht, hcar⟩ := specTypeOptMissing_carries implementationOf s h
        exact ReflCarries.inImplementationOf (Or.inl rfl) ht hcar
      · obtain ⟨t, ht, hcar⟩ := specTypeListMissing_carries extendedTypes s h
        exact ReflCarries.inExtended rfl ht hcar
      · obtain ⟨t, ht, hcar⟩ := specTypeListMissing_carries implementedTypes s h
        exact ReflCarries.inImplemented rfl ht hcar
    | .signature =>
      simp only [specReflMissing, RClass.isContainer, reduceCtorEq, reduceIte, if_true,
        if_false, List.mem_append, List.not_mem_nil, List.append_nil, List.nil_append,
        false_or, or_false, or_assoc] at h
      rcases h with h | h | h | h | h | h
      · obtain ⟨c2, hc2, hcar⟩ := specReflListMissing_carries parameters s h
        exact ReflCarries.inParam rfl hc2 hcar
      · obtain ⟨c2, hc2, hcar⟩ := specReflListMissing_carries typeParameters s h
        exact ReflCarries.inTypeParam (Or.inr rfl) hc2 hcar
      · obtain ⟨t, ht, hcar⟩ := specTypeOptMissing_carries type s h
        exact ReflCarries.inType (by simp) ht hcar
      · obtain ⟨t, ht, hcar⟩ := specTypeOptMissing_carries overwrites s h
        exact ReflCarries.inOverwrites (Or.inr rfl) ht hcar
      · obtain ⟨t, ht, hcar⟩ := specTypeOptMissing_carries inheritedFrom s h
        exact ReflCarries.inInheritedFrom (Or.inr rfl) ht hcar
      · obtain ⟨t, ht, hcar⟩ := specTypeOptMissing_carries implementationOf s h
        exact ReflCarries.inImplementationOf (Or.inr rfl) ht hcar
    | .parameter =>
      simp only [specReflMissing, RClass.isContainer, reduceCtorEq, reduceIte, if_true,
        if_false, List.mem_append, List.not_mem_nil, List.append_nil, List.nil_append,
        false_or, or_false, or_assoc] at h
      obtain ⟨t, ht, hcar⟩ := specTypeOptMissing_carries type s h
      exact ReflCarries.inType (by simp) ht hcar
    | .typeParameter =>
      simp only [specReflMissing, RClass.isContainer, reduceCtorEq, reduceIte, if_true,
        if_false, List.mem_append, List.not_mem_nil, List.append_nil, List.nil_append,
        false_or, or_false, or_assoc] at h
      rcases h with h | h
      · obtain ⟨t, ht, hcar⟩ := specTypeOptMissing_carries type s h
        exact ReflCarries.inType (by simp) ht hcar
      · obtain ⟨t, ht, hcar⟩ := specTypeOptMissing_carries default s h
        exact ReflCarries.inDefault rfl ht hcar

end

/-- Claim C10.  Only unresolved references that actually carry a symbol are
ever reported as missing: every symbol returned by discoverMissingExports is
justified by an unresolved symbol reference, reachable through the traversed
fields, whose getSymbol yields exactly that symbol.  An unresolved reference
whose getSymbol yields nothing can therefore never contribute to the result
set. -/
theorem discover_only_carried_symbols (root : Reflection) (s : Symb)
    (h : s ∈ discoverMissingExports root) : ReflCarries s root :=
  specReflMissing_carries root s ((mem_discoverMissingExports root s).mp h)

theorem discover_only_carried_symbols_witness : ReflCarries symT modA :=
  discover_only_carried_symbols modA symT (by rw [discover_modA_eval]; simp)
